import Mathlib

/-!
Verification development for the saltpack-python repository (src/encrypt.py).

The embedding models byte strings as `List Nat` (generalized bytes) and the
NaCl crypto substrate symbolically: every ciphertext or hash output contains
a header value that injectively records the inputs of the crypto operation
that produced it, via an injective encoding `encL : List Nat -> Nat`.
Authentication is perfect: an open operation succeeds exactly when it is
given the nonce and key under which the value was sealed (for Diffie-Hellman
shared secrets, equality of the underlying unordered pair of scalars, which
models the X25519 identity beforenm(pub a, b) = beforenm(pub b, a)).
Key and hash byte-lengths are abstracted (a public key is one symbolic
element rather than 32 raw bytes); the 16-element tag split of secretbox
outputs and the 24-element nonces are kept literal because the code slices
at those offsets.

The MessagePack layer (umsgpack) is modeled at the value level with the
inductive `MsgVal`: a ciphertext is the list of framed top-level values, in
on-the-wire order, and reading one value from the stream is taking the head
of the list.  Exceptions raised by the Python code are modeled by `DecErr`:
`truncated` is umsgpack InsufficientDataException, `valueError` a failed
sequence destructuring, `typeError` a non-bytes value reaching a bytes
operation, `cryptoError` an uncaught nacl CryptoError on the payload path,
`noRecipient` the RuntimeError raised when no recipient slot opens,
`indexError` an out-of-range tag-box index.
-/

set_option maxRecDepth 4000000

/-- Byte strings of the model: lists of unbounded naturals. -/
abbrev Bytes := List Nat

/-- Largest element of a list of naturals (0 for the empty list). -/
def maxElem (l : Bytes) : Nat := l.foldr max 0

/-- Little-endian positional value of a digit list in base B. -/
def posVal (B : Nat) : Bytes → Nat
  | [] => 0
  | x :: xs => x + B * posVal B xs

/-- Injective encoding of a byte string into a single natural: the length,
the base, and the positional value of the digits in that base. -/
def encL (l : Bytes) : Nat :=
  Nat.pair (Nat.pair l.length (maxElem l + 1)) (posVal (maxElem l + 1) l)

theorem mem_le_maxElem : ∀ {l : Bytes} {x : Nat}, x ∈ l → x ≤ maxElem l := by
  intro l
  induction l with
  | nil => intro x h; cases h
  | cons a as ih =>
    intro x h
    rcases List.mem_cons.mp h with h1 | h2
    · subst h1
      simp only [maxElem, List.foldr]
      exact Nat.le_max_left _ _
    · simp only [maxElem, List.foldr]
      exact le_trans (ih h2) (Nat.le_max_right _ _)

theorem posVal_inj (B : Nat) : ∀ (l1 l2 : Bytes),
    (∀ x ∈ l1, x < B) → (∀ x ∈ l2, x < B) → l1.length = l2.length →
    posVal B l1 = posVal B l2 → l1 = l2 := by
  intro l1
  induction l1 with
  | nil =>
    intro l2 _ _ hlen _
    cases l2 with
    | nil => rfl
    | cons y ys => simp at hlen
  | cons x xs ih =>
    intro l2 h1 h2 hlen hval
    cases l2 with
    | nil => simp at hlen
    | cons y ys =>
      have hx : x < B := h1 x (List.mem_cons_self x xs)
      have hy : y < B := h2 y (List.mem_cons_self y ys)
      simp only [posVal] at hval
      have hxmod : (x + B * posVal B xs) % B = x := by
        rw [Nat.mul_comm, Nat.add_mul_mod_self_right]
        exact Nat.mod_eq_of_lt hx
      have hymod : (y + B * posVal B ys) % B = y := by
        rw [Nat.mul_comm, Nat.add_mul_mod_self_right]
        exact Nat.mod_eq_of_lt hy
      have hxy : x = y := by rw [← hxmod, ← hymod, hval]
      subst hxy
      have hB : 0 < B := by omega
      have htail : posVal B xs = posVal B ys :=
        Nat.eq_of_mul_eq_mul_left hB (by omega)
      have := ih ys (fun z hz => h1 z (List.mem_cons_of_mem x hz))
        (fun z hz => h2 z (List.mem_cons_of_mem x hz))
        (by simpa using hlen) htail
      rw [this]

theorem pair_inj {a b c d : Nat} (h : Nat.pair a b = Nat.pair c d) :
    a = c ∧ b = d := by
  have h1 := congrArg Nat.unpair h
  simp [Nat.unpair_pair] at h1
  exact ⟨h1.1, h1.2⟩

theorem encL_inj : ∀ {l1 l2 : Bytes}, encL l1 = encL l2 → l1 = l2 := by
  intro l1 l2 h
  unfold encL at h
  obtain ⟨h1, hval⟩ := pair_inj h
  obtain ⟨hlen, hB⟩ := pair_inj h1
  refine posVal_inj (maxElem l1 + 1) l1 l2
    (fun x hx => by have := mem_le_maxElem hx; omega)
    (fun x hx => by have := mem_le_maxElem hx; omega)
    hlen (by rw [hB] at hval ⊢; exact hval)

/-! Symbolic crypto atoms.  Each atom is `8 * payload + tag` where the tag
identifies the producing primitive and the payload injectively records its
arguments through `encL` and `Nat.pair`. -/

/-- Atom for scalar base multiplication: the public key derived from sk.
Models nacl.bindings.crypto_scalarmult_base. -/
def atomPub (sk : Bytes) : Nat := 8 * encL sk + 1

/-- Atom for byte i of the SHA-512 digest of m. -/
def atomSha (m : Bytes) (i : Nat) : Nat := 8 * Nat.pair i (encL m) + 2

/-- Atom for an X25519 shared secret between two honestly derived key pairs,
canonicalized on the unordered pair of (encoded) scalars so that
beforenm(pub a, b) = beforenm(pub b, a) holds, as it does for X25519. -/
def atomDhOf (x y : Nat) : Nat := 8 * Nat.pair (min x y) (max x y) + 3

/-- Atom for a shared secret computed from a public value that is not of
base-point form; distinct from every canonical shared secret. -/
def atomDhRaw (pk sk : Bytes) : Nat := 8 * Nat.pair (encL pk) (encL sk) + 4

/-- Atom for the 16-byte Poly1305 tag of secretbox(m, n, k): first element of
the tag block. -/
def atomTagHdr (m n k : Bytes) : Nat :=
  8 * Nat.pair (Nat.pair (encL m) (encL k)) (encL n) + 5

/-- Atom heading an authenticated box ciphertext of message m under nonce n
and precomputed key k. -/
def atomBox (m n k : Bytes) : Nat :=
  8 * Nat.pair (Nat.pair (encL n) (encL k)) (encL m) + 6

/-- Atom heading the MessagePack serialization of the two-element key list
written into each recipient box (umsgpack.packb([sender_public, key])). -/
def atomPack (a b : Bytes) : Nat := 8 * Nat.pair (encL a) (encL b) + 7

/-! Crypto primitives, translated from the nacl.bindings calls in
src/encrypt.py.  These are the only operations the source consumes. -/

/-- Public key derivation (crypto_scalarmult_base, src/encrypt.py line 82). -/
def pubB (sk : Bytes) : Bytes := [atomPub sk]

/-- SHA-512 digest as 64 symbolic bytes (hashlib.sha512(...).digest()). -/
def sha512B (m : Bytes) : Bytes := (List.range 64).map (atomSha m)

/-- Byte constant written at src/encrypt.py lines 86-88: the ASCII bytes of
the string SaltPack, NUL, encryption nonce, space, and the trailing NUL. -/
def npTag : Bytes :=
  [83, 97, 108, 116, 80, 97, 99, 107, 0,
   101, 110, 99, 114, 121, 112, 116, 105, 111, 110, 32,
   110, 111, 110, 99, 101, 32, 112, 114, 101, 102, 105, 120, 0]

/-- First 16 bytes of the SHA-512 of the domain constant followed by the
ephemeral public key (src/encrypt.py lines 85-89 and 172-176). -/
def noncePreOf (ephPublic : Bytes) : Bytes :=
  (sha512B (npTag ++ ephPublic)).take 16

/-- The 64-bit big-endian counter bytes (src/encrypt.py counter, line 73). -/
def counterB (i : Nat) : Bytes :=
  (List.range 8).map (fun k => i / 256 ^ (7 - k) % 256)

/-- Precomputed shared secret (crypto_box_beforenm).  When the public value
is of base-point form the result is the canonical unordered-pair secret;
otherwise it is a raw combination, never equal to a canonical one. -/
def beforenm (pk sk : Bytes) : Bytes :=
  match pk with
  | [p] => if p % 8 = 1 then [atomDhOf (p / 8) (encL sk)] else [atomDhRaw pk sk]
  | _ => [atomDhRaw pk sk]

/-- The 16-byte Poly1305 tag block of secretbox(m, n, k). -/
def tagBytes (m n k : Bytes) : Bytes := atomTagHdr m n k :: List.replicate 15 0

/-- Symmetric authenticated encryption (crypto_secretbox): the 16-byte tag
followed by the message. -/
def secretboxSeal (m n k : Bytes) : Bytes := tagBytes m n k ++ m

/-- Symmetric authenticated decryption (crypto_secretbox_open): succeeds
exactly when the 16-byte tag block matches a recomputation from the body,
the nonce, and the key. -/
def secretboxOpen (ct n k : Bytes) : Option Bytes :=
  if ct.take 16 = tagBytes (ct.drop 16) n k then some (ct.drop 16) else none

/-- Authenticated box with a precomputed key (crypto_box_afternm). -/
def boxAfternm (m n k : Bytes) : Bytes := atomBox m n k :: m

/-- Open an authenticated box with a precomputed key
(crypto_box_open_afternm): succeeds exactly when the header matches a
recomputation from the body, the nonce, and the key. -/
def boxOpenAfternm (ct n k : Bytes) : Option Bytes :=
  match ct with
  | [] => none
  | h :: m => if h = atomBox m n k then some m else none

/-- Public-key box (crypto_box), equal to beforenm plus afternm as in NaCl. -/
def cryptoBox (m n pk sk : Bytes) : Bytes := boxAfternm m n (beforenm pk sk)

/-- MessagePack serialization of [sender_public, encryption_key]
(umsgpack.packb at src/encrypt.py line 93): a self-describing header atom,
the length of the first field, then the two fields. -/
def packKeys (a b : Bytes) : Bytes := atomPack a b :: a.length :: (a ++ b)

/-- Deserialization of the wrapped key list (umsgpack.unpackb at
src/encrypt.py line 196 followed by the 2-element destructuring).  Returns
none when the bytes are not a serialization produced by packKeys. -/
def unpackKeys (bs : Bytes) : Option (Bytes × Bytes) :=
  match bs with
  | h :: n :: rest =>
    if h = atomPack (rest.take n) (rest.drop n) ∧ n = (rest.take n).length
    then some (rest.take n, rest.drop n) else none
  | _ => none

/-! MessagePack values and the framed stream. -/

/-- A MessagePack value as produced and consumed by umsgpack: nil, integer,
string, byte string, or array. -/
inductive MsgVal where
  | nilV : MsgVal
  | intV : Int → MsgVal
  | strV : String → MsgVal
  | binV : Bytes → MsgVal
  | arrV : List MsgVal → MsgVal

/-- Error outcomes of decrypt, one per distinct Python exception source. -/
inductive DecErr where
  | truncated | valueError | typeError | cryptoError | noRecipient | indexError
deriving DecidableEq

/-- Python 2-element sequence destructuring ([a, b] = v): succeeds on any
2-element array; a 2-element byte or character string unpacks into elements
that then fail as non-bytes at the next bytes operation (TypeError); other
lengths raise ValueError; non-iterables raise TypeError. -/
def unpack2 (v : MsgVal) : Except DecErr (MsgVal × MsgVal) :=
  match v with
  | .arrV [a, b] => .ok (a, b)
  | .arrV _ => .error .valueError
  | .binV b => if b.length = 2 then .error .typeError else .error .valueError
  | .strV s => if s.length = 2 then .error .typeError else .error .valueError
  | _ => .error .typeError

/-! Chunking (src/encrypt.py lines 41-50). -/

/-- The while loop of chunks_with_empty, with an explicit iteration budget:
one recursive step per loop iteration, none when the budget is exhausted
with the loop condition still true.  The Python loop advances chunk_start by
chunk_size each iteration and therefore never terminates when
chunk_size = 0 and the message is nonempty; chunks_with_empty performs no
validation of chunk_size. -/
def chunksLoop (msg : Bytes) (cs : Nat) : Nat → Nat → Option (List Bytes)
  | 0, start => if start < msg.length then none else some []
  | fuel + 1, start =>
    if start < msg.length then
      (chunksLoop msg cs fuel (start + cs)).map
        (fun l => (msg.drop start).take cs :: l)
    else some []

/-- chunks_with_empty: the loop chunks followed by the empty sentinel chunk.
A budget of one more than the message length covers every terminating run,
since each iteration advances by chunk_size at least 1. -/
def chunksWithEmpty (msg : Bytes) (cs : Nat) : Option (List Bytes) :=
  (chunksLoop msg cs (msg.length + 1) 0).map (fun l => l ++ [[]])

/-! Encryption (src/encrypt.py lines 81-155).  The two os.urandom draws
(ephemeral private key and message encryption key) are passed in as
parameters to make the function deterministic. -/

/-- One recipient slot of the header (src/encrypt.py lines 98-109): the null
recipient identifier and the wrapped-keys box sealed to the recipient with
the ephemeral private key under the header nonce. -/
def mkSlot (keysBytes headerNonce ephSk pk : Bytes) : MsgVal :=
  MsgVal.arrV [MsgVal.nilV, MsgVal.binV (cryptoBox keysBytes headerNonce pk ephSk)]

/-- One payload packet (src/encrypt.py lines 128-153): secretbox the chunk
under nonce counter j + 2, split off the 16-byte tag, box the tag to every
recipient with the long-term sender key under the same nonce. -/
def mkPacket (pks : List Bytes) (senderSk encKey np : Bytes) (j : Nat)
    (chunk : Bytes) : MsgVal :=
  MsgVal.arrV
    [MsgVal.arrV (pks.map (fun pk =>
        MsgVal.binV (boxAfternm ((secretboxSeal chunk (np ++ counterB (j + 2)) encKey).take 16)
          (np ++ counterB (j + 2)) (beforenm pk senderSk)))),
     MsgVal.binV ((secretboxSeal chunk (np ++ counterB (j + 2)) encKey).drop 16)]

/-- The header value (src/encrypt.py lines 117-123). -/
def mkHeader (ephPublic : Bytes) (slots : List MsgVal) : MsgVal :=
  MsgVal.arrV [MsgVal.strV "SaltBox", MsgVal.arrV [MsgVal.intV 1, MsgVal.intV 0],
    MsgVal.intV 0, MsgVal.binV ephPublic, MsgVal.arrV slots]

/-- encrypt (src/encrypt.py lines 81-155), at the framed-value level: the
header followed by one packet per chunk.  Returns none exactly when the
chunking loop does not terminate (chunk_size = 0 on a nonempty message). -/
def encrypt (senderSk : Bytes) (pks : List Bytes) (msg : Bytes) (cs : Nat)
    (ephSk encKey : Bytes) : Option (List MsgVal) :=
  match chunksWithEmpty msg cs with
  | none => none
  | some chunks =>
    some (mkHeader (pubB ephSk)
        (pks.map (mkSlot (packKeys (pubB senderSk) encKey)
          (noncePreOf (pubB ephSk) ++ counterB 0) ephSk)) ::
      (List.enumFrom 0 chunks).map
        (fun p => mkPacket pks senderSk encKey (noncePreOf (pubB ephSk)) p.1 p.2))

/-! Decryption (src/encrypt.py lines 158-238). -/

/-- The recipient scan (src/encrypt.py lines 182-193): walk the slots in
order, destructure each as a 2-tuple, and try to open its box under the
given nonce with the ephemeral precomputed secret.  The first success
returns the wrapped bytes together with the slot index; a destructuring
failure propagates (only CryptoError is caught); if every slot fails the
RuntimeError becomes noRecipient. -/
def findRecipient (pairs : List MsgVal) (nonce k : Bytes) (idx : Nat) :
    Except DecErr (Bytes × Nat) :=
  match pairs with
  | [] => .error .noRecipient
  | p :: rest =>
    match unpack2 p with
    | .error e => .error e
    | .ok (_, boxV) =>
      match boxV with
      | .binV bx =>
        match boxOpenAfternm bx nonce k with
        | some m => .ok (m, idx)
        | none => findRecipient rest nonce k (idx + 1)
      | _ => .error .typeError

/-- The packet loop (src/encrypt.py lines 204-238): read one framed packet,
destructure it as a 2-tuple, index the tag boxes at the recipient slot
index, open the tag box with the sender precomputed secret, reattach the
tag, open the secretbox, and append the chunk; the empty chunk ends the
loop.  Reading past the end of the stream is truncated. -/
def decryptPackets (np senderBnm encKey : Bytes) (idx : Nat) :
    List MsgVal → Nat → Except DecErr Bytes
  | [], _ => .error .truncated
  | p :: rest, pn =>
    match unpack2 p with
    | .error e => .error e
    | .ok (tagBoxesV, strippedV) =>
      match tagBoxesV with
      | .arrV tagBoxes =>
        match tagBoxes.get? idx with
        | none => .error .indexError
        | some tbV =>
          match tbV with
          | .binV tb =>
            match boxOpenAfternm tb (np ++ counterB pn) senderBnm with
            | none => .error .cryptoError
            | some tag =>
              match strippedV with
              | .binV stripped =>
                match secretboxOpen (tag ++ stripped) (np ++ counterB pn) encKey with
                | none => .error .cryptoError
                | some chunk =>
                  if chunk = [] then .ok []
                  else
                    match decryptPackets np senderBnm encKey idx rest (pn + 1) with
                    | .ok out => .ok (chunk ++ out)
                    | .error e => .error e
              | _ => .error .typeError
          | _ => .error .typeError
      | .binV tb =>
        match tb.get? idx with
        | none => .error .indexError
        | some _ => .error .typeError
      | .strV s =>
        if idx < s.length then .error .typeError else .error .indexError
      | _ => .error .typeError

/-- Continuation of decrypt after the recipient scan (src/encrypt.py lines
196-238): unpack the wrapped key list, precompute the sender shared secret,
and run the packet loop starting at counter 2. -/
def decryptWithKeys (rest : List MsgVal) (np recipientSk keysBytes : Bytes)
    (idx : Nat) : Except DecErr Bytes :=
  match unpackKeys keysBytes with
  | none => .error .valueError
  | some (senderPublic, encKey) =>
    decryptPackets np (beforenm senderPublic recipientSk) encKey idx rest 2

/-- decrypt (src/encrypt.py lines 158-238) on the framed-value stream.  The
header is destructured as a 5-tuple whose second element is a 2-tuple; the
format name, version numbers and mode are bound but never inspected.  The
ephemeral public key must be bytes (it is concatenated into the nonce
preimage) and the recipient slots must be a list. -/
def decrypt (input : List MsgVal) (recipientSk : Bytes) : Except DecErr Bytes :=
  match input with
  | [] => .error .truncated
  | headerV :: rest =>
    match headerV with
    | .arrV [_fmt, versionV, _mode, ephV, pairsV] =>
      match unpack2 versionV with
      | .error e => .error e
      | .ok _ =>
        match ephV with
        | .binV ephPublic =>
          match pairsV with
          | .arrV pairs =>
            match findRecipient pairs (noncePreOf ephPublic ++ counterB 0)
                (beforenm ephPublic recipientSk) 0 with
            | .error e => .error e
            | .ok (keysBytes, idx) =>
              decryptWithKeys rest (noncePreOf ephPublic) recipientSk keysBytes idx
          | .binV b => if b = [] then .error .noRecipient else .error .typeError
          | .strV s => if s = "" then .error .noRecipient else .error .valueError
          | _ => .error .typeError
        | _ => .error .typeError
    | .arrV _ => .error .valueError
    | .binV b => if b.length = 5 then .error .typeError else .error .valueError
    | .strV s => if s.length = 5 then .error .typeError else .error .valueError
    | _ => .error .typeError

/-! Algebraic facts about the symbolic crypto layer. -/

theorem atomBox_eq_iff {m n k m2 n2 k2 : Bytes} :
    atomBox m n k = atomBox m2 n2 k2 ↔ (m = m2 ∧ n = n2 ∧ k = k2) := by
  constructor
  · intro h
    unfold atomBox at h
    have hp : Nat.pair (Nat.pair (encL n) (encL k)) (encL m) =
        Nat.pair (Nat.pair (encL n2) (encL k2)) (encL m2) := by omega
    obtain ⟨h1, h2⟩ := pair_inj hp
    obtain ⟨h3, h4⟩ := pair_inj h1
    exact ⟨encL_inj h2, encL_inj h3, encL_inj h4⟩
  · rintro ⟨rfl, rfl, rfl⟩; rfl

theorem boxOpen_seal (m n k k2 : Bytes) :
    boxOpenAfternm (boxAfternm m n k) n k2 = if k2 = k then some m else none := by
  by_cases hk : k2 = k
  · subst hk; simp [boxAfternm, boxOpenAfternm]
  · have hne : atomBox m n k ≠ atomBox m n k2 := by
      intro h
      exact hk (atomBox_eq_iff.mp h).2.2.symm
    simp [boxAfternm, boxOpenAfternm, hne, hk]

theorem atomDhOf_comm (x y : Nat) : atomDhOf x y = atomDhOf y x := by
  unfold atomDhOf
  rw [Nat.min_comm, Nat.max_comm]

theorem beforenm_pub (a b : Bytes) :
    beforenm (pubB a) b = [atomDhOf (encL a) (encL b)] := by
  have h1 : (8 * encL a + 1) % 8 = 1 := by omega
  have h2 : (8 * encL a + 1) / 8 = encL a := by omega
  simp [beforenm, pubB, atomPub, h1, h2]

theorem beforenm_pub_sym (a b : Bytes) :
    beforenm (pubB a) b = beforenm (pubB b) a := by
  rw [beforenm_pub, beforenm_pub, atomDhOf_comm]

theorem unordered_eq {a b c d : Nat} (h1 : min a b = min c d)
    (h2 : max a b = max c d) : (a = c ∧ b = d) ∨ (a = d ∧ b = c) := by
  omega

theorem atomDhOf_eq_iff {x y u v : Nat} :
    atomDhOf x y = atomDhOf u v ↔ ((x = u ∧ y = v) ∨ (x = v ∧ y = u)) := by
  constructor
  · intro h
    unfold atomDhOf at h
    have hp : Nat.pair (min x y) (max x y) = Nat.pair (min u v) (max u v) := by omega
    obtain ⟨h1, h2⟩ := pair_inj hp
    exact unordered_eq h1 h2
  · rintro (⟨rfl, rfl⟩ | ⟨rfl, rfl⟩)
    · rfl
    · exact atomDhOf_comm x y

/-- The ephemeral trial decryption at a slot succeeds exactly for the public
key derived from the decrypting private key: beforenm(pk, eph) equals
beforenm(pub eph, r) precisely when pk = pub r. -/
theorem beforenm_eq_key_iff (pk e r : Bytes) :
    beforenm pk e = beforenm (pubB e) r ↔ pk = pubB r := by
  rw [beforenm_pub]
  constructor
  · intro h
    match pk with
    | [] => simp [beforenm, atomDhRaw, atomDhOf] at h; omega
    | p :: q :: tl => simp [beforenm, atomDhRaw, atomDhOf] at h; omega
    | [p] =>
      by_cases hp : p % 8 = 1
      · simp [beforenm, hp] at h
        rcases atomDhOf_eq_iff.mp h with ⟨ha, hb⟩ | ⟨ha, hb⟩
        · have : p / 8 = encL r := by rw [ha, hb]
          have hpe : p = 8 * encL r + 1 := by omega
          simp [pubB, atomPub, hpe]
        · have hpe : p = 8 * encL r + 1 := by omega
          simp [pubB, atomPub, hpe]
      · simp [beforenm, hp, atomDhRaw, atomDhOf] at h
        omega
  · intro h
    subst h
    rw [beforenm_pub, atomDhOf_comm]

theorem tagBytes_len (m n k : Bytes) : (tagBytes m n k).length = 16 := by
  simp [tagBytes]

theorem take_secretboxSeal (m n k : Bytes) :
    (secretboxSeal m n k).take 16 = tagBytes m n k := by
  unfold secretboxSeal
  rw [show (16 : Nat) = (tagBytes m n k).length from (tagBytes_len m n k).symm]
  exact List.take_left _ _

theorem drop_secretboxSeal (m n k : Bytes) :
    (secretboxSeal m n k).drop 16 = m := by
  unfold secretboxSeal
  rw [show (16 : Nat) = (tagBytes m n k).length from (tagBytes_len m n k).symm]
  exact List.drop_left _ _

theorem secretboxOpen_seal (m n k : Bytes) :
    secretboxOpen (secretboxSeal m n k) n k = some m := by
  simp [secretboxOpen, take_secretboxSeal, drop_secretboxSeal]

theorem unpackKeys_packKeys (a b : Bytes) : unpackKeys (packKeys a b) = some (a, b) := by
  simp [packKeys, unpackKeys, List.take_left, List.drop_left]

/-! Facts about the chunking loop. -/

/-- Shape of the chunk list produced by chunks_with_empty: a run of nonempty
chunks ended by exactly one empty sentinel chunk. -/
inductive SentinelChunks : List Bytes → Prop where
  | last : SentinelChunks [[]]
  | cons {c : Bytes} {l : List Bytes} :
      c ≠ [] → SentinelChunks l → SentinelChunks (c :: l)

theorem chunksLoop_spec (msg : Bytes) (cs : Nat) (hcs : 1 ≤ cs) :
    ∀ fuel start, msg.length ≤ start + fuel →
    ∃ l, chunksLoop msg cs fuel start = some l ∧
      l.flatten = msg.drop start ∧ ∀ c ∈ l, c ≠ [] ∧ c.length ≤ cs := by
  intro fuel
  induction fuel with
  | zero =>
    intro start hle
    refine ⟨[], ?_, ?_, ?_⟩
    · simp [chunksLoop]
      omega
    · simp [List.drop_eq_nil_of_le (by omega : msg.length ≤ start)]
    · simp
  | succ fuel ih =>
    intro start hle
    by_cases hlt : start < msg.length
    · obtain ⟨l, hl, hjoin, hprops⟩ := ih (start + cs) (by omega)
      refine ⟨(msg.drop start).take cs :: l, ?_, ?_, ?_⟩
      · simp [chunksLoop, hlt, hl]
      · simp only [List.flatten_cons, hjoin]
        have h := List.take_append_drop cs (msg.drop start)
        rw [List.drop_drop] at h
        exact h
      · intro c hc
        rcases List.mem_cons.mp hc with h1 | h2
        · subst h1
          constructor
          · have hdl : (msg.drop start).length = msg.length - start :=
              List.length_drop start msg
            intro hnil
            have := congrArg List.length hnil
            simp [List.length_take, hdl] at this
            omega
          · simp [List.length_take]
        · exact hprops c h2
    · refine ⟨[], ?_, ?_, ?_⟩
      · simp [chunksLoop, hlt]
      · simp [List.drop_eq_nil_of_le (by omega : msg.length ≤ start)]
      · simp

theorem chunksWithEmpty_spec (msg : Bytes) (cs : Nat) (hcs : 1 ≤ cs) :
    ∃ l, chunksWithEmpty msg cs = some (l ++ [[]]) ∧
      l.flatten = msg ∧ ∀ c ∈ l, c ≠ [] ∧ c.length ≤ cs := by
  obtain ⟨l, hl, hjoin, hprops⟩ :=
    chunksLoop_spec msg cs hcs (msg.length + 1) 0 (by omega)
  exact ⟨l, by simp [chunksWithEmpty, hl], by simp [hjoin], hprops⟩

theorem sentinel_of_nonempty :
    ∀ {l : List Bytes}, (∀ c ∈ l, c ≠ []) → SentinelChunks (l ++ [[]]) := by
  intro l
  induction l with
  | nil => intro _; exact SentinelChunks.last
  | cons c cs ih =>
    intro h
    exact SentinelChunks.cons (h c (List.mem_cons_self c cs))
      (ih (fun x hx => h x (List.mem_cons_of_mem c hx)))

theorem join_sentinel (l : List Bytes) : (l ++ [[]]).flatten = l.flatten := by
  simp

/-! Behaviour of the recipient scan on honestly built slots. -/

theorem findRecipient_map_mkSlot (kb hn ephSk rSk : Bytes) :
    ∀ (pks : List Bytes) (i0 : Nat), pubB rSk ∈ pks →
    ∃ i, findRecipient (pks.map (mkSlot kb hn ephSk)) hn
        (beforenm (pubB ephSk) rSk) i0 = .ok (kb, i0 + i) ∧
      pks.get? i = some (pubB rSk) := by
  intro pks
  induction pks with
  | nil => intro i0 h; simp at h
  | cons pk rest ih =>
    intro i0 hmem
    by_cases hpk : pk = pubB rSk
    · refine ⟨0, ?_, by simp [hpk]⟩
      have hcond : beforenm (pubB ephSk) rSk = beforenm pk ephSk :=
        ((beforenm_eq_key_iff pk ephSk rSk).mpr hpk).symm
      simp [findRecipient, mkSlot, unpack2, cryptoBox, boxOpen_seal, hcond]
    · have hmem2 : pubB rSk ∈ rest := by
        rcases List.mem_cons.mp hmem with h1 | h2
        · exact absurd h1.symm hpk
        · exact h2
      obtain ⟨i, h1, h2⟩ := ih (i0 + 1) hmem2
      refine ⟨i + 1, ?_, by simpa using h2⟩
      have hcond : beforenm (pubB ephSk) rSk ≠ beforenm pk ephSk := by
        intro h
        exact hpk ((beforenm_eq_key_iff pk ephSk rSk).mp h.symm)
      have hstep : findRecipient (List.map (mkSlot kb hn ephSk) (pk :: rest)) hn
          (beforenm (pubB ephSk) rSk) i0 =
          findRecipient (List.map (mkSlot kb hn ephSk) rest) hn
          (beforenm (pubB ephSk) rSk) (i0 + 1) := by
        simp [findRecipient, mkSlot, unpack2, cryptoBox, boxOpen_seal, hcond]
      rw [hstep, h1]
      congr 2
      omega

/-! Behaviour of the packet loop on honestly built packets. -/

theorem secretboxOpen_tag_body (m n k : Bytes) :
    secretboxOpen (tagBytes m n k ++ m) n k = some m :=
  secretboxOpen_seal m n k

theorem decryptPackets_honest_step (pks : List Bytes)
    (senderSk encKey np rSk : Bytes) (idx : Nat)
    (hidx : pks.get? idx = some (pubB rSk)) (chunk : Bytes) (j : Nat)
    (rest : List MsgVal) :
    decryptPackets np (beforenm (pubB senderSk) rSk) encKey idx
      (mkPacket pks senderSk encKey np j chunk :: rest) (j + 2) =
    (if chunk = [] then .ok [] else
      match decryptPackets np (beforenm (pubB senderSk) rSk) encKey idx rest
          (j + 2 + 1) with
      | .ok out => .ok (chunk ++ out)
      | .error e => .error e) := by
  have hsym : beforenm (pubB senderSk) rSk = beforenm (pubB rSk) senderSk :=
    beforenm_pub_sym senderSk rSk
  have hidx2 : pks[idx]? = some (pubB rSk) := by
    rw [← List.get?_eq_getElem?]
    exact hidx
  simp [decryptPackets, mkPacket, unpack2, hidx2, List.getElem?_map, boxOpen_seal,
    hsym, take_secretboxSeal, drop_secretboxSeal, secretboxOpen_tag_body]

theorem decryptPackets_sentinel (pks : List Bytes)
    (senderSk encKey np rSk : Bytes) (idx : Nat)
    (hidx : pks.get? idx = some (pubB rSk)) :
    ∀ {chs : List Bytes}, SentinelChunks chs → ∀ (j0 : Nat) (extra : List MsgVal),
    decryptPackets np (beforenm (pubB senderSk) rSk) encKey idx
      ((List.enumFrom j0 chs).map
        (fun p => mkPacket pks senderSk encKey np p.1 p.2) ++ extra)
      (j0 + 2) = .ok chs.flatten := by
  intro chs hs
  induction hs with
  | last =>
    intro j0 extra
    simp only [List.enumFrom, List.map_cons, List.map_nil, List.cons_append,
      List.nil_append]
    rw [decryptPackets_honest_step pks senderSk encKey np rSk idx hidx [] j0 extra]
    simp
  | @cons c l hc _ ih =>
    intro j0 extra
    simp only [List.enumFrom, List.map_cons, List.cons_append]
    rw [decryptPackets_honest_step pks senderSk encKey np rSk idx hidx c j0
      ((List.enumFrom (j0 + 1) l).map
        (fun p => mkPacket pks senderSk encKey np p.1 p.2) ++ extra)]
    rw [if_neg hc]
    rw [ih (j0 + 1) extra]
    simp

theorem decryptPackets_no_sentinel (pks : List Bytes)
    (senderSk encKey np rSk : Bytes) (idx : Nat)
    (hidx : pks.get? idx = some (pubB rSk)) :
    ∀ (l : List Bytes), (∀ c ∈ l, c ≠ []) → ∀ (j0 : Nat),
    decryptPackets np (beforenm (pubB senderSk) rSk) encKey idx
      ((List.enumFrom j0 l).map
        (fun p => mkPacket pks senderSk encKey np p.1 p.2))
      (j0 + 2) = .error .truncated := by
  intro l
  induction l with
  | nil => intro _ j0; simp [decryptPackets]
  | cons c cs ih =>
    intro h j0
    simp only [List.enumFrom, List.map_cons]
    rw [show (List.enumFrom (j0 + 1) cs).map
        (fun p => mkPacket pks senderSk encKey np p.1 p.2) =
        (List.enumFrom (j0 + 1) cs).map
        (fun p => mkPacket pks senderSk encKey np p.1 p.2) ++ [] by simp] at *
    rw [decryptPackets_honest_step pks senderSk encKey np rSk idx hidx c j0 _]
    rw [if_neg (h c (List.mem_cons_self c cs))]
    rw [show (List.enumFrom (j0 + 1) cs).map
        (fun p => mkPacket pks senderSk encKey np p.1 p.2) ++ [] =
        (List.enumFrom (j0 + 1) cs).map
        (fun p => mkPacket pks senderSk encKey np p.1 p.2) by simp]
    rw [ih (fun x hx => h x (List.mem_cons_of_mem c hx)) (j0 + 1)]

/-- Master lemma: an honestly encrypted stream decrypts to the plaintext for
any recipient whose public key was addressed, regardless of the values of
the format-name, version and mode header fields and of any values appended
after the sentinel packet. -/
theorem decrypt_encrypt_master (senderSk : Bytes) (pks : List Bytes)
    (msg : Bytes) (cs : Nat) (ephSk encKey rSk : Bytes) (hcs : 1 ≤ cs)
    (hmem : pubB rSk ∈ pks) (f maj mn md : MsgVal) (extra : List MsgVal)
    (chunks : List Bytes) (hch : chunksWithEmpty msg cs = some chunks) :
    decrypt (MsgVal.arrV [f, MsgVal.arrV [maj, mn], md, MsgVal.binV (pubB ephSk),
        MsgVal.arrV (pks.map (mkSlot (packKeys (pubB senderSk) encKey)
          (noncePreOf (pubB ephSk) ++ counterB 0) ephSk))] ::
      ((List.enumFrom 0 chunks).map
        (fun p => mkPacket pks senderSk encKey (noncePreOf (pubB ephSk)) p.1 p.2)
        ++ extra)) rSk = .ok msg := by
  obtain ⟨l, hl, hjoin, hprops⟩ := chunksWithEmpty_spec msg cs hcs
  have hc2 : chunks = l ++ [[]] := by
    rw [hch] at hl
    exact Option.some.inj hl
  subst hc2
  obtain ⟨i, hfind, hget⟩ := findRecipient_map_mkSlot
    (packKeys (pubB senderSk) encKey) (noncePreOf (pubB ephSk) ++ counterB 0)
    ephSk rSk pks 0 hmem
  have hsent : SentinelChunks (l ++ [[]]) :=
    sentinel_of_nonempty (fun c hc => (hprops c hc).1)
  simp only [decrypt, unpack2]
  rw [hfind]
  simp only [decryptWithKeys, unpackKeys_packKeys, Nat.zero_add]
  rw [show (2 : Nat) = 0 + 2 by rfl]
  rw [decryptPackets_sentinel pks senderSk encKey (noncePreOf (pubB ephSk)) rSk
    i hget hsent 0 extra]
  rw [join_sentinel, hjoin]

/-! Claim theorems. -/

/-- C1: for every sender private key, non-empty recipient list, plaintext,
chunk size at least 1, and recipient private key whose derived public key is
among the recipients, decrypting an encryption returns exactly the
plaintext.  The two random draws of encrypt (ephemeral key, encryption key)
are arbitrary parameters. -/
theorem C1_round_trip (senderSk : Bytes) (pks : List Bytes) (msg : Bytes)
    (cs : Nat) (ephSk encKey rSk : Bytes) (hcs : 1 ≤ cs)
    (hmem : pubB rSk ∈ pks) :
    ∃ ct, encrypt senderSk pks msg cs ephSk encKey = some ct ∧
      decrypt ct rSk = .ok msg := by
  obtain ⟨l, hl, hjoin, hprops⟩ := chunksWithEmpty_spec msg cs hcs
  refine ⟨mkHeader (pubB ephSk)
      (pks.map (mkSlot (packKeys (pubB senderSk) encKey)
        (noncePreOf (pubB ephSk) ++ counterB 0) ephSk)) ::
    (List.enumFrom 0 (l ++ [[]])).map
      (fun p => mkPacket pks senderSk encKey (noncePreOf (pubB ephSk)) p.1 p.2),
    by simp [encrypt, hl], ?_⟩
  have hmaster := decrypt_encrypt_master senderSk pks msg cs ephSk encKey rSk
    hcs hmem (MsgVal.strV "SaltBox") (MsgVal.intV 1) (MsgVal.intV 0)
    (MsgVal.intV 0) [] (l ++ [[]]) hl
  simpa [mkHeader] using hmaster

/-- Witness for C1 at concrete inputs. -/
theorem C1_round_trip_witness :
    ∃ ct, encrypt [0] [pubB [1]] [7] 1 [2] [3] = some ct ∧
      decrypt ct [1] = .ok [7] :=
  C1_round_trip [0] [pubB [1]] [7] 1 [2] [3] [1] (le_refl 1) (by simp)

/-- C2 counterexample: a ciphertext whose header carries version [2, 0] and
mode 1 (all other parts taken from an honest encryption of the plaintext
[7]) is decrypted successfully to [7]; decrypt performs no format-name,
version, or mode comparison and does not fail on non-zero mode or on a
version other than [1, 0]. -/
theorem C2_counterexample :
    decrypt
      (MsgVal.arrV [MsgVal.strV "SaltBox",
          MsgVal.arrV [MsgVal.intV 2, MsgVal.intV 0], MsgVal.intV 1,
          MsgVal.binV (pubB [2]),
          MsgVal.arrV [mkSlot (packKeys (pubB [0]) [3])
            (noncePreOf (pubB [2]) ++ counterB 0) [2] (pubB [1])]] ::
        ((encrypt [0] [pubB [1]] [7] 1 [2] [3]).getD []).tail) [1] =
      .ok [7] := by rfl

/-- C2 amended: after parsing the header, decrypt binds the format name, the
two version numbers, and the mode, but never compares them against
anything: replacing those fields of an honestly produced header by arbitrary
values (the version by an arbitrary 2-element array) leaves decryption
successful.  The only header validation is structural destructuring. -/
theorem C2_header_fields_unchecked (senderSk : Bytes) (pks : List Bytes)
    (msg : Bytes) (cs : Nat) (ephSk encKey rSk : Bytes)
    (f0 v0 m0 ephV pairsV : MsgVal) (pkts : List MsgVal)
    (hcs : 1 ≤ cs) (hmem : pubB rSk ∈ pks)
    (hEnc : encrypt senderSk pks msg cs ephSk encKey =
      some (MsgVal.arrV [f0, v0, m0, ephV, pairsV] :: pkts)) :
    ∀ f maj mn md : MsgVal,
      decrypt (MsgVal.arrV [f, MsgVal.arrV [maj, mn], md, ephV, pairsV] :: pkts)
        rSk = .ok msg := by
  intro f maj mn md
  obtain ⟨l, hl, hjoin, hprops⟩ := chunksWithEmpty_spec msg cs hcs
  rw [encrypt, hl] at hEnc
  simp only [Option.some.injEq, List.cons.injEq] at hEnc
  obtain ⟨hhdr, hpkts⟩ := hEnc
  rw [mkHeader] at hhdr
  simp only [MsgVal.arrV.injEq, List.cons.injEq] at hhdr
  obtain ⟨-, -, -, heph, hpairs, -⟩ := hhdr
  subst heph
  subst hpairs
  subst hpkts
  have hmaster := decrypt_encrypt_master senderSk pks msg cs ephSk encKey rSk
    hcs hmem f maj mn md [] (l ++ [[]]) hl
  simpa using hmaster

/-- Witness for C2 amended at concrete inputs. -/
theorem C2_header_fields_unchecked_witness :
    decrypt (MsgVal.arrV [MsgVal.nilV, MsgVal.arrV [MsgVal.intV 9, MsgVal.nilV],
        MsgVal.intV 5, MsgVal.binV (pubB [2]),
        MsgVal.arrV [mkSlot (packKeys (pubB [0]) [3])
          (noncePreOf (pubB [2]) ++ counterB 0) [2] (pubB [1])]] ::
      ((encrypt [0] [pubB [1]] [] 1 [2] [3]).getD []).tail) [1] = .ok [] := by
  have h := C2_header_fields_unchecked [0] [pubB [1]] [] 1 [2] [3] [1]
    (MsgVal.strV "SaltBox") (MsgVal.arrV [MsgVal.intV 1, MsgVal.intV 0])
    (MsgVal.intV 0) (MsgVal.binV (pubB [2]))
    (MsgVal.arrV [mkSlot (packKeys (pubB [0]) [3])
      (noncePreOf (pubB [2]) ++ counterB 0) [2] (pubB [1])])
    (((encrypt [0] [pubB [1]] [] 1 [2] [3]).getD []).tail)
    (le_refl 1) (by simp) (by rfl)
    MsgVal.nilV (MsgVal.intV 9) MsgVal.nilV (MsgVal.intV 5)
  exact h

/-- C3 counterexample: appending one extra framed value to a valid
ciphertext (the byte 0x00 is the MessagePack encoding of the integer 0)
leaves decryption successful with the original plaintext, instead of
failing with a trailing-data error. -/
theorem C3_counterexample :
    decrypt (((encrypt [0] [pubB [1]] [7] 1 [2] [3]).getD []) ++
      [MsgVal.intV 0]) [1] = .ok [7] := by rfl

/-- C3 amended: decrypt stops reading at the empty sentinel chunk and never
examines the rest of the input: any data appended after a valid ciphertext
is ignored and the original plaintext is returned; there is no trailing-data
check. -/
theorem C3_trailing_ignored (senderSk : Bytes) (pks : List Bytes)
    (msg : Bytes) (cs : Nat) (ephSk encKey rSk : Bytes) (ct : List MsgVal)
    (hcs : 1 ≤ cs) (hmem : pubB rSk ∈ pks)
    (hEnc : encrypt senderSk pks msg cs ephSk encKey = some ct) :
    ∀ extra : List MsgVal, decrypt (ct ++ extra) rSk = .ok msg := by
  intro extra
  obtain ⟨l, hl, hjoin, hprops⟩ := chunksWithEmpty_spec msg cs hcs
  rw [encrypt, hl] at hEnc
  have hct := (Option.some.inj hEnc).symm
  subst hct
  rw [List.cons_append]
  have hmaster := decrypt_encrypt_master senderSk pks msg cs ephSk encKey rSk
    hcs hmem (MsgVal.strV "SaltBox") (MsgVal.intV 1) (MsgVal.intV 0)
    (MsgVal.intV 0) extra (l ++ [[]]) hl
  simpa [mkHeader] using hmaster

/-- Witness for C3 amended at concrete inputs. -/
theorem C3_trailing_ignored_witness :
    decrypt (((encrypt [0] [pubB [1]] [] 1 [2] [3]).getD []) ++
      [MsgVal.nilV, MsgVal.intV 7]) [1] = .ok [] := by
  have h := C3_trailing_ignored [0] [pubB [1]] [] 1 [2] [3] [1]
    ((encrypt [0] [pubB [1]] [] 1 [2] [3]).getD [])
    (le_refl 1) (by simp) (by rfl) [MsgVal.nilV, MsgVal.intV 7]
  exact h

/-- C4: a packet stream that ends before a packet carrying the empty
sentinel chunk makes decrypt fail with the truncated error (the
InsufficientDataException umsgpack raises at end of stream): removing the
final empty-chunk packet from any honestly encrypted ciphertext yields
truncated, and in general the packet loop reports truncated whenever it
exhausts the stream. -/
theorem C4_truncated (senderSk : Bytes) (pks : List Bytes) (msg : Bytes)
    (cs : Nat) (ephSk encKey rSk : Bytes) (ct : List MsgVal)
    (hcs : 1 ≤ cs) (hmem : pubB rSk ∈ pks)
    (hEnc : encrypt senderSk pks msg cs ephSk encKey = some ct) :
    decrypt ct.dropLast rSk = .error .truncated ∧
    ∀ (np sb ek : Bytes) (idx pn : Nat),
      decryptPackets np sb ek idx [] pn = .error .truncated := by
  refine ⟨?_, fun np sb ek idx pn => rfl⟩
  obtain ⟨l, hl, hjoin, hprops⟩ := chunksWithEmpty_spec msg cs hcs
  rw [encrypt, hl] at hEnc
  have hct := (Option.some.inj hEnc).symm
  subst hct
  rw [show List.enumFrom 0 (l ++ [[]]) =
      List.enumFrom 0 l ++ [(0 + l.length, ([] : Bytes))] by
    simp [List.enumFrom_append]]
  rw [List.map_append, List.map_cons, List.map_nil]
  rw [show mkHeader (pubB ephSk)
        (pks.map (mkSlot (packKeys (pubB senderSk) encKey)
          (noncePreOf (pubB ephSk) ++ counterB 0) ephSk)) ::
      ((List.enumFrom 0 l).map (fun p =>
        mkPacket pks senderSk encKey (noncePreOf (pubB ephSk)) p.1 p.2) ++
        [mkPacket pks senderSk encKey (noncePreOf (pubB ephSk))
          (0 + l.length) []]) =
      (mkHeader (pubB ephSk)
        (pks.map (mkSlot (packKeys (pubB senderSk) encKey)
          (noncePreOf (pubB ephSk) ++ counterB 0) ephSk)) ::
      (List.enumFrom 0 l).map (fun p =>
        mkPacket pks senderSk encKey (noncePreOf (pubB ephSk)) p.1 p.2)) ++
        [mkPacket pks senderSk encKey (noncePreOf (pubB ephSk))
          (0 + l.length) []] by simp]
  rw [List.dropLast_concat]
  obtain ⟨i, hfind, hget⟩ := findRecipient_map_mkSlot
    (packKeys (pubB senderSk) encKey) (noncePreOf (pubB ephSk) ++ counterB 0)
    ephSk rSk pks 0 hmem
  simp only [mkHeader, decrypt, unpack2]
  rw [hfind]
  simp only [decryptWithKeys, unpackKeys_packKeys, Nat.zero_add]
  rw [show (2 : Nat) = 0 + 2 by rfl]
  exact decryptPackets_no_sentinel pks senderSk encKey (noncePreOf (pubB ephSk))
    rSk i hget l (fun c hc => (hprops c hc).1) 0

/-- Witness for C4 at concrete inputs. -/
theorem C4_truncated_witness :
    decrypt ((encrypt [0] [pubB [1]] [7] 1 [2] [3]).getD []).dropLast [1] =
      .error .truncated := by
  have h := C4_truncated [0] [pubB [1]] [7] 1 [2] [3] [1]
    ((encrypt [0] [pubB [1]] [7] 1 [2] [3]).getD [])
    (le_refl 1) (by simp) (by rfl)
  exact h.1

/-- C5 counterexample: a stream whose header carries two recipient slots but
whose payload packet carries a single tag box (length 1, disagreeing with
the recipient count 2) is decrypted successfully by the first recipient:
the tag-boxes length is never compared with the number of slots. -/
theorem C5_counterexample :
    decrypt
      (MsgVal.arrV [MsgVal.strV "SaltBox",
          MsgVal.arrV [MsgVal.intV 1, MsgVal.intV 0], MsgVal.intV 0,
          MsgVal.binV (pubB [2]),
          MsgVal.arrV [mkSlot (packKeys (pubB [0]) [3])
              (noncePreOf (pubB [2]) ++ counterB 0) [2] (pubB [1]),
            mkSlot (packKeys (pubB [0]) [3])
              (noncePreOf (pubB [2]) ++ counterB 0) [2] (pubB [4])]] ::
        [mkPacket [pubB [1]] [0] [3] (noncePreOf (pubB [2])) 0 []]) [1] =
      .ok [] := by rfl

/-- C5 amended: each payload packet must destructure as a 2-tuple (an array
of any other length raises ValueError, at any position of the stream), but
the tag-boxes length is never compared with the recipient-slot count: the
loop reads only the entry at the resolved slot index, so two packets whose
tag-box lists agree at that index are interchangeable whatever their
lengths, and a missing entry at that index raises IndexError. -/
theorem C5_packet_shape :
    (∀ (np sb ek : Bytes) (idx pn : Nat) (l : List MsgVal)
      (rest : List MsgVal), l.length ≠ 2 →
      decryptPackets np sb ek idx (MsgVal.arrV l :: rest) pn =
        .error .valueError) ∧
    (∀ (np sb ek : Bytes) (idx pn : Nat) (tb1 tb2 : List MsgVal)
      (strippedV : MsgVal) (rest : List MsgVal),
      tb1.get? idx = tb2.get? idx →
      decryptPackets np sb ek idx
          (MsgVal.arrV [MsgVal.arrV tb1, strippedV] :: rest) pn =
        decryptPackets np sb ek idx
          (MsgVal.arrV [MsgVal.arrV tb2, strippedV] :: rest) pn) ∧
    (∀ (np sb ek : Bytes) (idx pn : Nat) (tb : List MsgVal)
      (strippedV : MsgVal) (rest : List MsgVal),
      tb.get? idx = none →
      decryptPackets np sb ek idx
          (MsgVal.arrV [MsgVal.arrV tb, strippedV] :: rest) pn =
        .error .indexError) := by
  refine ⟨?_, ?_, ?_⟩
  · intro np sb ek idx pn l rest hlen
    match l with
    | [] => simp [decryptPackets, unpack2]
    | [a] => simp [decryptPackets, unpack2]
    | [a, b] => simp at hlen
    | a :: b :: c :: tl => simp [decryptPackets, unpack2]
  · intro np sb ek idx pn tb1 tb2 strippedV rest hget
    simp only [decryptPackets, unpack2]
    rw [hget]
  · intro np sb ek idx pn tb strippedV rest hget
    rw [List.get?_eq_getElem?] at hget
    simp [decryptPackets, unpack2, hget]

/-- Witness for C5 amended at concrete inputs. -/
theorem C5_packet_shape_witness :
    (decryptPackets [0] [1] [2] 0
        [MsgVal.arrV [MsgVal.nilV, MsgVal.nilV, MsgVal.nilV]] 2 =
      .error .valueError) ∧
    (decryptPackets [0] [1] [2] 0
        [MsgVal.arrV [MsgVal.arrV [MsgVal.intV 4], MsgVal.nilV]] 2 =
      decryptPackets [0] [1] [2] 0
        [MsgVal.arrV [MsgVal.arrV [MsgVal.intV 4, MsgVal.intV 5],
          MsgVal.nilV]] 2) ∧
    (decryptPackets [0] [1] [2] 3
        [MsgVal.arrV [MsgVal.arrV [MsgVal.intV 4], MsgVal.nilV]] 2 =
      .error .indexError) :=
  ⟨C5_packet_shape.1 [0] [1] [2] 0 2
      [MsgVal.nilV, MsgVal.nilV, MsgVal.nilV] [] (by simp),
   C5_packet_shape.2.1 [0] [1] [2] 0 2 [MsgVal.intV 4]
      [MsgVal.intV 4, MsgVal.intV 5] MsgVal.nilV [] (by rfl),
   C5_packet_shape.2.2 [0] [1] [2] 3 2 [MsgVal.intV 4] MsgVal.nilV []
      (by rfl)⟩

/-- C6: the recipient slots are tried strictly in header order under the
counter-0 nonce with the ephemeral precomputed secret.  First conjunct: if
every slot before position i is a well-formed pair whose box fails to open
and the box at position i opens to m, the scan returns m together with the
slot index i, whatever comes after position i (so no later slot is
examined).  Second conjunct: if every slot is a well-formed pair and none
opens, the scan fails with noRecipient.  Third conjunct: decrypt feeds the
scan result (wrapped bytes and slot index) into the payload phase, the
index selecting the tag box of every packet. -/
theorem C6_first_slot_wins :
    (∀ (pre post : List MsgVal) (nonce k : Bytes) (i0 : Nat) (idv : MsgVal)
      (bx m : Bytes),
      (∀ q ∈ pre, ∃ idq bq, q = MsgVal.arrV [idq, MsgVal.binV bq] ∧
        boxOpenAfternm bq nonce k = none) →
      boxOpenAfternm bx nonce k = some m →
      findRecipient (pre ++ MsgVal.arrV [idv, MsgVal.binV bx] :: post)
        nonce k i0 = .ok (m, i0 + pre.length)) ∧
    (∀ (pairs : List MsgVal) (nonce k : Bytes) (i0 : Nat),
      (∀ q ∈ pairs, ∃ idq bq, q = MsgVal.arrV [idq, MsgVal.binV bq] ∧
        boxOpenAfternm bq nonce k = none) →
      findRecipient pairs nonce k i0 = .error .noRecipient) ∧
    (∀ (f maj mn md : MsgVal) (ephPublic : Bytes) (pairs rest : List MsgVal)
      (rSk keysBytes : Bytes) (idx : Nat),
      findRecipient pairs (noncePreOf ephPublic ++ counterB 0)
        (beforenm ephPublic rSk) 0 = .ok (keysBytes, idx) →
      decrypt (MsgVal.arrV [f, MsgVal.arrV [maj, mn], md,
          MsgVal.binV ephPublic, MsgVal.arrV pairs] :: rest) rSk =
        decryptWithKeys rest (noncePreOf ephPublic) rSk keysBytes idx) := by
  refine ⟨?_, ?_, ?_⟩
  · intro pre
    induction pre with
    | nil =>
      intro post nonce k i0 idv bx m _ hopen
      simp [findRecipient, unpack2, hopen]
    | cons q pre ih =>
      intro post nonce k i0 idv bx m hpre hopen
      obtain ⟨idq, bq, hq, hfail⟩ := hpre q (List.mem_cons_self q pre)
      subst hq
      have hstep := ih post nonce k (i0 + 1) idv bx m
        (fun x hx => hpre x (List.mem_cons_of_mem _ hx)) hopen
      simp only [List.cons_append, findRecipient, unpack2, hfail,
        List.append_eq]
      rw [hstep]
      simp only [List.length_cons, Except.ok.injEq, Prod.mk.injEq, true_and]
      omega
  · intro pairs
    induction pairs with
    | nil => intro nonce k i0 _; simp [findRecipient]
    | cons q pairs ih =>
      intro nonce k i0 hall
      obtain ⟨idq, bq, hq, hfail⟩ := hall q (List.mem_cons_self q pairs)
      subst hq
      simp only [findRecipient, unpack2, hfail]
      exact ih nonce k (i0 + 1) (fun x hx => hall x (List.mem_cons_of_mem _ hx))
  · intro f maj mn md ephPublic pairs rest rSk keysBytes idx hfind
    simp only [decrypt, unpack2]
    rw [hfind]

/-- Witness for C6 at concrete inputs: a two-slot scan where only the second
slot opens, an all-failing scan, and the dispatch of decrypt on a parsed
header. -/
theorem C6_first_slot_wins_witness :
    (findRecipient [MsgVal.arrV [MsgVal.nilV, MsgVal.binV (boxAfternm [5] [0] [2])],
        MsgVal.arrV [MsgVal.nilV, MsgVal.binV (boxAfternm [5] [0] [1])]]
      [0] [1] 0 = .ok ([5], 0 + 1)) ∧
    (findRecipient [MsgVal.arrV [MsgVal.nilV, MsgVal.binV (boxAfternm [5] [0] [2])]]
      [0] [1] 0 = .error .noRecipient) ∧
    (decrypt (MsgVal.arrV [MsgVal.nilV, MsgVal.arrV [MsgVal.nilV, MsgVal.nilV],
        MsgVal.nilV, MsgVal.binV [9],
        MsgVal.arrV [MsgVal.arrV [MsgVal.nilV, MsgVal.binV (boxAfternm [5]
          (noncePreOf [9] ++ counterB 0) (beforenm [9] [1]))]]] :: []) [1] =
      decryptWithKeys [] (noncePreOf [9]) [1] [5] 0) := by
  refine ⟨?_, ?_, ?_⟩
  · exact C6_first_slot_wins.1
      [MsgVal.arrV [MsgVal.nilV, MsgVal.binV (boxAfternm [5] [0] [2])]] []
      [0] [1] 0 MsgVal.nilV (boxAfternm [5] [0] [1]) [5]
      (by
        intro q hq
        simp only [List.mem_singleton] at hq
        subst hq
        exact ⟨MsgVal.nilV, boxAfternm [5] [0] [2], rfl, by rfl⟩)
      (by rfl)
  · exact C6_first_slot_wins.2.1
      [MsgVal.arrV [MsgVal.nilV, MsgVal.binV (boxAfternm [5] [0] [2])]]
      [0] [1] 0
      (by
        intro q hq
        simp only [List.mem_singleton] at hq
        subst hq
        exact ⟨MsgVal.nilV, boxAfternm [5] [0] [2], rfl, by rfl⟩)
  · exact C6_first_slot_wins.2.2 MsgVal.nilV MsgVal.nilV MsgVal.nilV
      MsgVal.nilV [9]
      [MsgVal.arrV [MsgVal.nilV, MsgVal.binV (boxAfternm [5]
        (noncePreOf [9] ++ counterB 0) (beforenm [9] [1]))]]
      [] [1] [5] 0 (by rfl)

/-- C7: for every chunk index j, the emitted packet j is the pair of the
per-recipient tag boxes and the stripped secretbox body: the chunk is
sealed under nonce counter j + 2 with the encryption key, the first 16
bytes form the tag and the remainder the body, and the tag box for
recipient i (in header order) seals the tag under the same nonce with the
shared secret of the long-term sender key and recipient i. -/
theorem C7_packet_structure (senderSk : Bytes) (pks : List Bytes)
    (msg : Bytes) (cs : Nat) (ephSk encKey : Bytes) (hcs : 1 ≤ cs) :
    ∃ chunks packets,
      chunksWithEmpty msg cs = some chunks ∧
      encrypt senderSk pks msg cs ephSk encKey =
        some (mkHeader (pubB ephSk)
          (pks.map (mkSlot (packKeys (pubB senderSk) encKey)
            (noncePreOf (pubB ephSk) ++ counterB 0) ephSk)) :: packets) ∧
      packets.length = chunks.length ∧
      ∀ j c, chunks.get? j = some c →
        packets.get? j = some (MsgVal.arrV
          [MsgVal.arrV (pks.map (fun pk => MsgVal.binV (boxAfternm
              ((secretboxSeal c (noncePreOf (pubB ephSk) ++ counterB (j + 2))
                encKey).take 16)
              (noncePreOf (pubB ephSk) ++ counterB (j + 2))
              (beforenm pk senderSk)))),
           MsgVal.binV ((secretboxSeal c
              (noncePreOf (pubB ephSk) ++ counterB (j + 2)) encKey).drop 16)]) := by
  obtain ⟨l, hl, hjoin, hprops⟩ := chunksWithEmpty_spec msg cs hcs
  refine ⟨l ++ [[]],
    (List.enumFrom 0 (l ++ [[]])).map
      (fun p => mkPacket pks senderSk encKey (noncePreOf (pubB ephSk)) p.1 p.2),
    hl, by simp [encrypt, hl], by simp, ?_⟩
  intro j c hget
  rw [List.get?_eq_getElem?] at hget ⊢
  rw [List.getElem?_map, List.getElem?_enumFrom, hget]
  simp [mkPacket]

/-- Witness for C7 at concrete inputs. -/
theorem C7_packet_structure_witness :
    ∃ chunks packets,
      chunksWithEmpty [7] 1 = some chunks ∧
      encrypt [0] [pubB [1]] [7] 1 [2] [3] =
        some (mkHeader (pubB [2])
          ([pubB [1]].map (mkSlot (packKeys (pubB [0]) [3])
            (noncePreOf (pubB [2]) ++ counterB 0) [2])) :: packets) ∧
      packets.length = chunks.length ∧
      ∀ j c, chunks.get? j = some c →
        packets.get? j = some (MsgVal.arrV
          [MsgVal.arrV ([pubB [1]].map (fun pk => MsgVal.binV (boxAfternm
              ((secretboxSeal c (noncePreOf (pubB [2]) ++ counterB (j + 2))
                [3]).take 16)
              (noncePreOf (pubB [2]) ++ counterB (j + 2))
              (beforenm pk [0])))),
           MsgVal.binV ((secretboxSeal c
              (noncePreOf (pubB [2]) ++ counterB (j + 2)) [3]).drop 16)]) :=
  C7_packet_structure [0] [pubB [1]] [7] 1 [2] [3] (le_refl 1)

/-- C8: the nonce material.  The nonce base is the first 16 bytes of the
SHA-512 of the domain constant followed by the ephemeral public key, hence
a pure function of the ephemeral public key; every nonce used is that base
followed by the 8-byte big-endian counter (24 bytes in total); the
recipient boxes of the header all use counter 0 and payload packet j uses
counter j + 2; the counter value 1 belongs to no operation: it is absent
from the list of counters an encryption uses. -/
theorem C8_nonces (senderSk : Bytes) (pks : List Bytes) (msg : Bytes)
    (cs : Nat) (ephSk encKey : Bytes) (hcs : 1 ≤ cs) :
    (∀ ep : Bytes, noncePreOf ep = (sha512B (npTag ++ ep)).take 16) ∧
    (∀ (ep : Bytes) (i : Nat), (noncePreOf ep ++ counterB i).length = 24) ∧
    (∃ chunks packets,
      chunksWithEmpty msg cs = some chunks ∧
      encrypt senderSk pks msg cs ephSk encKey =
        some (MsgVal.arrV [MsgVal.strV "SaltBox",
          MsgVal.arrV [MsgVal.intV 1, MsgVal.intV 0], MsgVal.intV 0,
          MsgVal.binV (pubB ephSk),
          MsgVal.arrV (pks.map (fun pk => MsgVal.arrV [MsgVal.nilV,
            MsgVal.binV (boxAfternm (packKeys (pubB senderSk) encKey)
              (noncePreOf (pubB ephSk) ++ counterB 0)
              (beforenm pk ephSk))]))] :: packets) ∧
      (∀ j c, chunks.get? j = some c →
        packets.get? j = some (mkPacket pks senderSk encKey
          (noncePreOf (pubB ephSk)) j c) ∧
        mkPacket pks senderSk encKey (noncePreOf (pubB ephSk)) j c =
          MsgVal.arrV [MsgVal.arrV (pks.map (fun pk => MsgVal.binV (boxAfternm
              ((secretboxSeal c (noncePreOf (pubB ephSk) ++ counterB (j + 2))
                encKey).take 16)
              (noncePreOf (pubB ephSk) ++ counterB (j + 2))
              (beforenm pk senderSk)))),
            MsgVal.binV ((secretboxSeal c (noncePreOf (pubB ephSk) ++
              counterB (j + 2)) encKey).drop 16)]) ∧
      (1 : Nat) ∉ (0 :: (List.range chunks.length).map (fun j => j + 2))) := by
  refine ⟨fun ep => rfl, ?_, ?_⟩
  · intro ep i
    simp [noncePreOf, sha512B, counterB]
  · obtain ⟨l, hl, hjoin, hprops⟩ := chunksWithEmpty_spec msg cs hcs
    refine ⟨l ++ [[]],
      (List.enumFrom 0 (l ++ [[]])).map
        (fun p => mkPacket pks senderSk encKey (noncePreOf (pubB ephSk)) p.1 p.2),
      hl, by simp [encrypt, hl, mkHeader, mkSlot, cryptoBox], ?_, by simp⟩
    intro j c hget
    rw [List.get?_eq_getElem?] at hget
    constructor
    · rw [List.get?_eq_getElem?, List.getElem?_map, List.getElem?_enumFrom, hget]
      simp
    · simp [mkPacket]

/-- Witness for C8 at concrete inputs. -/
theorem C8_nonces_witness :
    (∀ ep : Bytes, noncePreOf ep = (sha512B (npTag ++ ep)).take 16) ∧
    (∀ (ep : Bytes) (i : Nat), (noncePreOf ep ++ counterB i).length = 24) ∧
    (∃ chunks packets,
      chunksWithEmpty [7] 1 = some chunks ∧
      encrypt [0] [pubB [1]] [7] 1 [2] [3] =
        some (MsgVal.arrV [MsgVal.strV "SaltBox",
          MsgVal.arrV [MsgVal.intV 1, MsgVal.intV 0], MsgVal.intV 0,
          MsgVal.binV (pubB [2]),
          MsgVal.arrV ([pubB [1]].map (fun pk => MsgVal.arrV [MsgVal.nilV,
            MsgVal.binV (boxAfternm (packKeys (pubB [0]) [3])
              (noncePreOf (pubB [2]) ++ counterB 0)
              (beforenm pk [2]))]))] :: packets) ∧
      (∀ j c, chunks.get? j = some c →
        packets.get? j = some (mkPacket [pubB [1]] [0] [3]
          (noncePreOf (pubB [2])) j c) ∧
        mkPacket [pubB [1]] [0] [3] (noncePreOf (pubB [2])) j c =
          MsgVal.arrV [MsgVal.arrV ([pubB [1]].map (fun pk => MsgVal.binV (boxAfternm
              ((secretboxSeal c (noncePreOf (pubB [2]) ++ counterB (j + 2))
                [3]).take 16)
              (noncePreOf (pubB [2]) ++ counterB (j + 2))
              (beforenm pk [0])))),
            MsgVal.binV ((secretboxSeal c (noncePreOf (pubB [2]) ++
              counterB (j + 2)) [3]).drop 16)]) ∧
      (1 : Nat) ∉ (0 :: (List.range chunks.length).map (fun j => j + 2))) :=
  C8_nonces [0] [pubB [1]] [7] 1 [2] [3] (le_refl 1)

/-- C9: for chunk_size at least 1 the chunking loop terminates (the result
is independent of any sufficiently large iteration budget) and yields a
finite list whose concatenation is the message, whose every element has
length at most chunk_size, and whose last element is the empty chunk; the
encryption therefore emits one packet per chunk, at least one.  The bound
is needed: chunks_with_empty validates nothing, and with chunk_size 0 on a
nonempty message the loop never terminates (it fails for every iteration
budget). -/
theorem C9_chunks (msg : Bytes) (cs : Nat) (hcs : 1 ≤ cs) :
    (∃ chunks, chunksWithEmpty msg cs = some chunks ∧
      chunks.flatten = msg ∧ (∀ c ∈ chunks, c.length ≤ cs) ∧
      chunks ≠ [] ∧ chunks.getLast? = some [] ∧
      (∀ (senderSk ephSk encKey : Bytes) (pks : List Bytes), ∃ hdr pkts,
        encrypt senderSk pks msg cs ephSk encKey = some (hdr :: pkts) ∧
        pkts.length = chunks.length ∧ 1 ≤ pkts.length)) ∧
    (∀ msg2 : Bytes, msg2 ≠ [] → ∀ fuel, chunksLoop msg2 0 fuel 0 = none) := by
  constructor
  · obtain ⟨l, hl, hjoin, hprops⟩ := chunksWithEmpty_spec msg cs hcs
    refine ⟨l ++ [[]], hl, by simp [hjoin], ?_, by simp, List.getLast?_concat l, ?_⟩
    · intro c hc
      rcases List.mem_append.mp hc with h1 | h2
      · exact (hprops c h1).2
      · simp only [List.mem_singleton] at h2
        subst h2
        simp
    · intro senderSk ephSk encKey pks
      refine ⟨mkHeader (pubB ephSk)
          (pks.map (mkSlot (packKeys (pubB senderSk) encKey)
            (noncePreOf (pubB ephSk) ++ counterB 0) ephSk)),
        (List.enumFrom 0 (l ++ [[]])).map
          (fun p => mkPacket pks senderSk encKey (noncePreOf (pubB ephSk))
            p.1 p.2),
        by simp [encrypt, hl], by simp, by simp⟩
  · intro msg2 hne fuel
    induction fuel with
    | zero =>
      have hlt : 0 < msg2.length := List.length_pos.mpr hne
      simp [chunksLoop, hlt]
    | succ fuel ih =>
      have hlt : 0 < msg2.length := List.length_pos.mpr hne
      simp [chunksLoop, hlt, ih]

/-- Witness for C9 at concrete inputs. -/
theorem C9_chunks_witness :
    (∃ chunks, chunksWithEmpty [7, 8, 9] 2 = some chunks ∧
      chunks.flatten = [7, 8, 9] ∧ (∀ c ∈ chunks, c.length ≤ 2) ∧
      chunks ≠ [] ∧ chunks.getLast? = some [] ∧
      (∀ (senderSk ephSk encKey : Bytes) (pks : List Bytes), ∃ hdr pkts,
        encrypt senderSk pks [7, 8, 9] 2 ephSk encKey = some (hdr :: pkts) ∧
        pkts.length = chunks.length ∧ 1 ≤ pkts.length)) ∧
    (∀ msg2 : Bytes, msg2 ≠ [] → ∀ fuel, chunksLoop msg2 0 fuel 0 = none) :=
  C9_chunks [7, 8, 9] 2 (by omega)

/-! C10: the recipient-identifier field of each slot is never inspected. -/

/-- Two slot values that can differ only in the recipient-identifier first
component of a 2-element slot; everything else must be identical. -/
def slotIdRel (s t : MsgVal) : Prop :=
  s = t ∨ ∃ x y c, s = MsgVal.arrV [x, c] ∧ t = MsgVal.arrV [y, c]

/-- Two header values that can differ only in the recipient-identifier
values of their recipient slots. -/
def headerIdRel (h1 h2 : MsgVal) : Prop :=
  h1 = h2 ∨ ∃ f v m e p1 p2,
    h1 = MsgVal.arrV [f, v, m, e, MsgVal.arrV p1] ∧
    h2 = MsgVal.arrV [f, v, m, e, MsgVal.arrV p2] ∧
    List.Forall₂ slotIdRel p1 p2

theorem findRecipient_congr :
    ∀ {p1 p2 : List MsgVal}, List.Forall₂ slotIdRel p1 p2 →
    ∀ (nonce k : Bytes) (i0 : Nat),
    findRecipient p1 nonce k i0 = findRecipient p2 nonce k i0 := by
  intro p1 p2 hrel
  induction hrel with
  | nil => intro nonce k i0; rfl
  | @cons s t l1 l2 hst _ ih =>
    intro nonce k i0
    rcases hst with rfl | ⟨x, y, c, rfl, rfl⟩
    · simp only [findRecipient]
      cases hu : unpack2 s with
      | error e => simp
      | ok pr =>
        obtain ⟨idv, boxV⟩ := pr
        cases boxV with
        | binV bx =>
          cases hob : boxOpenAfternm bx nonce k with
          | none =>
            simp only [hob]
            exact ih nonce k (i0 + 1)
          | some m => simp only [hob]
        | nilV => simp
        | intV i => simp
        | strV st => simp
        | arrV a => simp
    · simp only [findRecipient, unpack2]
      cases c with
      | binV bx =>
        cases hob : boxOpenAfternm bx nonce k with
        | none =>
          simp only [hob]
          exact ih nonce k (i0 + 1)
        | some m => simp only [hob]
      | nilV => simp
      | intV i => simp
      | strV st => simp
      | arrV a => simp

/-- C10: decrypt never inspects the recipient-identifier value of any slot:
two inputs that agree everywhere except in those values produce the same
outcome (the same plaintext or the same error) for every recipient private
key. -/
theorem C10_slot_id_ignored (h1 h2 : MsgVal) (rest : List MsgVal)
    (rSk : Bytes) (hrel : headerIdRel h1 h2) :
    decrypt (h1 :: rest) rSk = decrypt (h2 :: rest) rSk := by
  rcases hrel with rfl | ⟨f, v, m, e, p1, p2, rfl, rfl, hp⟩
  · rfl
  · simp only [decrypt]
    cases e with
    | binV ephPublic =>
      have h := findRecipient_congr hp (noncePreOf ephPublic ++ counterB 0)
        (beforenm ephPublic rSk) 0
      simp only [h]
    | nilV => rfl
    | intV i => rfl
    | strV st => rfl
    | arrV a => rfl

/-- Witness for C10 at concrete inputs: replacing the null slot identifier
of an honest header by the integer 9 does not change the decryption
outcome. -/
theorem C10_slot_id_ignored_witness :
    decrypt (MsgVal.arrV [MsgVal.strV "SaltBox",
        MsgVal.arrV [MsgVal.intV 1, MsgVal.intV 0], MsgVal.intV 0,
        MsgVal.binV (pubB [2]),
        MsgVal.arrV [MsgVal.arrV [MsgVal.nilV,
          MsgVal.binV (cryptoBox (packKeys (pubB [0]) [3])
            (noncePreOf (pubB [2]) ++ counterB 0) (pubB [1]) [2])]]] ::
      ((encrypt [0] [pubB [1]] [] 1 [2] [3]).getD []).tail) [1] =
    decrypt (MsgVal.arrV [MsgVal.strV "SaltBox",
        MsgVal.arrV [MsgVal.intV 1, MsgVal.intV 0], MsgVal.intV 0,
        MsgVal.binV (pubB [2]),
        MsgVal.arrV [MsgVal.arrV [MsgVal.intV 9,
          MsgVal.binV (cryptoBox (packKeys (pubB [0]) [3])
            (noncePreOf (pubB [2]) ++ counterB 0) (pubB [1]) [2])]]] ::
      ((encrypt [0] [pubB [1]] [] 1 [2] [3]).getD []).tail) [1] :=
  C10_slot_id_ignored _ _ _ [1]
    (Or.inr ⟨MsgVal.strV "SaltBox",
      MsgVal.arrV [MsgVal.intV 1, MsgVal.intV 0], MsgVal.intV 0,
      MsgVal.binV (pubB [2]), _, _, rfl, rfl,
      List.Forall₂.cons
        (Or.inr ⟨MsgVal.nilV, MsgVal.intV 9,
          MsgVal.binV (cryptoBox (packKeys (pubB [0]) [3])
            (noncePreOf (pubB [2]) ++ counterB 0) (pubB [1]) [2]),
          rfl, rfl⟩)
        List.Forall₂.nil⟩)
